import Mathlib

/-!
Shallow embedding of the sheet-music-transposer pipeline
(`remove_key_change_complete.py`) and proofs of its specified properties.

The score model follows the data model used by the script: a Score is an
ordered list of Parts, a Part an ordered list of Measures, and a Measure
carries its key signatures (signed sharp counts) and an ordered list of
Note/Chord events.  Pitches are modelled as semitone integers, so the
`interval.Interval '-m2'` transposition is addition of `-1`.
-/

set_option autoImplicit false

namespace SheetMusic

/-- A single note: a pitch (in semitones) and an optional lyric syllable. -/
structure Note where
  pitch : Int
  lyric : Option String
deriving DecidableEq, Repr

/-- A chord: a collection of simultaneous pitches; no lyric attachment. -/
structure Chord where
  pitches : List Int
deriving DecidableEq, Repr

/-- A note-or-chord event inside a measure (`note.Note` / `chord.Chord`). -/
inductive Elem where
  | note : Note → Elem
  | chord : Chord → Elem
deriving DecidableEq, Repr

/-- A measure: its key signatures (signed sharp counts, flats negative) and
its events, in stored order. -/
structure Measure where
  keySigs : List Int
  events : List Elem
deriving DecidableEq, Repr

/-- A part is an ordered list of measures. -/
abbrev Part := List Measure

/-- A score is an ordered list of parts. -/
abbrev Score := List Part

/-- Default measure used by `List.getD` indexing in statements. -/
def emptyMeasure : Measure := { keySigs := [], events := [] }

/-- `if ks.sharps >= 5` in `remove_key_change`. -/
def thresholdSharps : Int := 5

/-- `key.KeySignature(-4)`: the fixed F-minor replacement (4 flats). -/
def replacementKey : Int := -4

/-- `interval.Interval('-m2')`: down a semitone. -/
def semitoneShift : Int := -1

/-- A key signature qualifies as a modulation marker when its sharp count
reaches the threshold. -/
def qualifies (s : Int) : Bool := decide (thresholdSharps ≤ s)

/-- Effect of the replacement loop on one key signature: a qualifying
signature is removed and `replacementKey` inserted in its place; others
are untouched. -/
def replaceSig (s : Int) : Int :=
  if thresholdSharps ≤ s then replacementKey else s

/-- `element.transpose(transpose_interval, inPlace=True)` on a Note or a
Chord: every pitch moves by `semitoneShift`; a lyric is unaffected. -/
def transposeElem : Elem → Elem
  | .note n => .note { n with pitch := n.pitch + semitoneShift }
  | .chord c => .chord { pitches := c.pitches.map (fun p => p + semitoneShift) }

/-- The per-part measure loop of `remove_key_change`: carries the
`in_modulation` flag and returns the rewritten measures together with the
`key_sigs_replaced` and `measures_transposed` counters. -/
def processMeasures : Bool → List Measure → List Measure × Nat × Nat
  | _, [] => ([], 0, 0)
  | inMod, m :: ms =>
      let q := m.keySigs.countP qualifies
      let inMod2 := inMod || decide (0 < q)
      let m2 : Measure :=
        { keySigs := m.keySigs.map replaceSig,
          events := if inMod2 then m.events.map transposeElem else m.events }
      let r := processMeasures inMod2 ms
      (m2 :: r.1, q + r.2.1, (if inMod2 then 1 else 0) + r.2.2)

/-- One part of `remove_key_change`: the flag starts at `False` for each
part. -/
def processPart (p : Part) : Part × Nat × Nat := processMeasures false p

/-- `remove_key_change`: every part is processed independently; the second
component is the per-part report (key signatures replaced, measures
transposed) printed by the script. -/
def remove_key_change (s : Score) : Score × List (Nat × Nat) :=
  (s.map (fun p => (processPart p).1), s.map (fun p => (processPart p).2))

/-- Index of the first measure of a part holding a qualifying key
signature (`p.length` when none does). -/
def triggerIdx (p : Part) : Nat :=
  p.findIdx (fun m => m.keySigs.any qualifies)

/-- The pitches carried by an event. -/
def elemPitches : Elem → List Int
  | .note n => [n.pitch]
  | .chord c => c.pitches

/-- Total number of qualifying key signatures in a list of measures. -/
def totalQualifying : List Measure → Nat
  | [] => 0
  | m :: ms => m.keySigs.countP qualifies + totalQualifying ms

/-- The single Notes among a list of events, in order (Chords skipped);
this is the `[n for n in part.flatten().notes if isinstance(n, note.Note)]`
collection restricted to one measure's events. -/
def notesOfEvents : List Elem → List Note
  | [] => []
  | .note n :: rest => n :: notesOfEvents rest
  | .chord _ :: rest => notesOfEvents rest

/-- The Chords among a list of events, in order. -/
def chordsOfEvents : List Elem → List Chord
  | [] => []
  | .note _ :: rest => chordsOfEvents rest
  | .chord c :: rest => c :: chordsOfEvents rest

/-- All single Notes of a part in traversal order. -/
def partNotes : Part → List Note
  | [] => []
  | m :: ms => notesOfEvents m.events ++ partNotes ms

/-- All Chords of a part in traversal order. -/
def partChords : Part → List Chord
  | [] => []
  | m :: ms => chordsOfEvents m.events ++ partChords ms

/-- Map with the position of the element, starting from a given index. -/
def mapWithIndex {α β : Type} (f : Nat → α → β) : Nat → List α → List β
  | _, [] => []
  | i, a :: as => f i a :: mapWithIndex f (i + 1) as

/-- The lyric a note at global note-index `i` receives: `syllables[i]`
when `i < len(syllables)`, otherwise the note is left as it was. -/
def assignLyric (syls : List String) (i : Nat) (n : Note) : Note :=
  if i < syls.length then { n with lyric := some (syls.getD i "") } else n

/-- The inner walk of `add_lyrics` over one measure's events: `i` is the
number of single Notes already seen; each Note at running index `i` gets
`syllables[i]` when available, Chords are passed over unchanged. -/
def setLyricsEvents (syls : List String) : Nat → List Elem → List Elem × Nat
  | i, [] => ([], i)
  | i, .note n :: rest =>
      let r := setLyricsEvents syls (i + 1) rest
      (.note (assignLyric syls i n) :: r.1, r.2)
  | i, .chord c :: rest =>
      let r := setLyricsEvents syls i rest
      (.chord c :: r.1, r.2)

/-- The walk of `add_lyrics` over the measures of the first part,
threading the running note index. -/
def setLyricsMeasures (syls : List String) : Nat → List Measure → List Measure × Nat
  | i, [] => ([], i)
  | i, m :: ms =>
      let r := setLyricsEvents syls i m.events
      let r2 := setLyricsMeasures syls r.2 ms
      ({ m with events := r.1 } :: r2.1, r2.2)

/-- `add_lyrics`: only `score.parts[:1]` is touched; the i-th single Note
of the first part receives `syllables[i]` while syllables last. -/
def add_lyrics (syls : List String) : Score → Score
  | [] => []
  | p :: rest => (setLyricsMeasures syls 0 p).1 :: rest

/-- The OCR loop body over the non-cover page images: `rec` abstracts one
`oemer` run together with the `glob` for its `.musicxml` output (`none`
when the recognizer produced no file, that page being dropped). -/
def ocrLoop (rec : String → Option String) : List String → List String
  | [] => []
  | img :: rest =>
      match rec img with
      | some f => f :: ocrLoop rec rest
      | none => ocrLoop rec rest

/-- Stable insertion into an ascending list of strings. -/
def insertSorted (x : String) : List String → List String
  | [] => [x]
  | y :: ys => if x ≤ y then x :: y :: ys else y :: insertSorted x ys

/-- `sorted(...)` on the collected file names. -/
def sortStrings : List String → List String
  | [] => []
  | x :: xs => insertSorted x (sortStrings xs)

/-- `ocr_images_to_musicxml`: the first page image is skipped as the
cover (`image_paths[1:]`), the rest are recognized in order and the found
files returned sorted. -/
def ocr_images_to_musicxml (rec : String → Option String)
    (imagePaths : List String) : List String :=
  sortStrings (ocrLoop rec (imagePaths.drop 1))

/-- One later page folded into the combined score: part `i` of the page
is appended onto combined part `i` when `i < len(combined.parts)`; page
parts at higher indices are dropped, combined parts the page lacks stay. -/
def appendPageParts : Score → Score → Score
  | [], _ => []
  | cs, [] => cs
  | c :: cs, p :: ps => (c ++ p) :: appendPageParts cs ps

/-- `combine_musicxml_pages`: the first page is loaded whole and the
remaining pages' measures are appended part-by-part; an empty file list
raises `ValueError("No MusicXML files to combine!")`. -/
def combine_musicxml_pages : List Score → Except String Score
  | [] => .error "No MusicXML files to combine!"
  | first :: rest => .ok (rest.foldl appendPageParts first)

/-- Concatenation of the measures contributed to part `i` by a list of
pages (a page without a part `i` contributes nothing). -/
def pagesPartAt (i : Nat) : List Score → Part
  | [] => []
  | pg :: pgs => pg.getD i [] ++ pagesPartAt i pgs

/-- Result of a `subprocess.run` invocation of the external renderer. -/
structure ProcResult where
  returncode : Int
  stdout : String
  stderr : String

/-- `export_to_pdf`: `run` abstracts the blocking `musescore3` call; a
zero return code yields the PDF path, otherwise a `RuntimeError` whose
message embeds the renderer's stderr. -/
def export_to_pdf (run : String → String → ProcResult)
    (musicxmlPath pdfPath : String) : Except String String :=
  let result := run musicxmlPath pdfPath
  if result.returncode = 0 then Except.ok pdfPath
  else Except.error ("MuseScore export failed: " ++ result.stderr)

/-! ### Helper lemmas about the measure loop -/

theorem processMeasures_length (b : Bool) (ms : List Measure) :
    (processMeasures b ms).1.length = ms.length := by
  induction ms generalizing b with
  | nil => rfl
  | cons m ms ih => simp [processMeasures, ih]

theorem processMeasures_getD_keySigs (b : Bool) (ms : List Measure) (j : Nat) :
    ((processMeasures b ms).1.getD j emptyMeasure).keySigs
      = ((ms.getD j emptyMeasure).keySigs).map replaceSig := by
  induction ms generalizing b j with
  | nil => simp [processMeasures, emptyMeasure]
  | cons m ms ih =>
      cases j with
      | zero => simp [processMeasures]
      | succ j => simpa [processMeasures, List.getD_cons_succ] using ih _ j

theorem countP_qualifies_any (l : List Int) :
    decide (0 < l.countP qualifies) = l.any qualifies := by
  rcases hq : l.any qualifies with _ | _
  · have h0 : l.countP qualifies = 0 := by
      rw [List.countP_eq_zero]
      intro a ha
      exact (List.any_eq_false.mp hq) a ha
    simp [h0]
  · obtain ⟨a, ha, hqa⟩ := List.any_eq_true.mp hq
    simp [List.countP_pos_iff]
    exact ⟨a, ha, hqa⟩

theorem processMeasures_cons (b : Bool) (m : Measure) (ms : List Measure) :
    processMeasures b (m :: ms)
      = (({ keySigs := m.keySigs.map replaceSig,
            events := if b || m.keySigs.any qualifies then
                        m.events.map transposeElem
                      else m.events } : Measure)
           :: (processMeasures (b || m.keySigs.any qualifies) ms).1,
         m.keySigs.countP qualifies
           + (processMeasures (b || m.keySigs.any qualifies) ms).2.1,
         (if b || m.keySigs.any qualifies then 1 else 0)
           + (processMeasures (b || m.keySigs.any qualifies) ms).2.2) := by
  have hc := countP_qualifies_any m.keySigs
  simp only [processMeasures, hc]

theorem processMeasures_getD_events (b : Bool) (ms : List Measure) (j : Nat) :
    ((processMeasures b ms).1.getD j emptyMeasure).events
      = if b || decide (ms.findIdx (fun m => m.keySigs.any qualifies) ≤ j) then
          ((ms.getD j emptyMeasure).events).map transposeElem
        else (ms.getD j emptyMeasure).events := by
  induction ms generalizing b j with
  | nil =>
      simp only [processMeasures, List.getD_nil, emptyMeasure, List.map_nil]
      split <;> rfl
  | cons m ms ih =>
      rw [processMeasures_cons, List.findIdx_cons]
      rcases hq : m.keySigs.any qualifies with _ | _
      · cases j with
        | zero =>
            have h0 : decide (List.findIdx (fun m => m.keySigs.any qualifies) ms + 1 ≤ 0)
                = false := by simp
            simp only [Bool.or_false, cond_false, List.getD_cons_zero, h0]
        | succ j =>
            have h1 : decide (List.findIdx (fun m => m.keySigs.any qualifies) ms + 1 ≤ j + 1)
                = decide (List.findIdx (fun m => m.keySigs.any qualifies) ms ≤ j) := by
              simp [Nat.succ_le_succ_iff]
            simp only [Bool.or_false, cond_false, List.getD_cons_succ, h1]
            exact ih b j
      · cases j with
        | zero =>
            have h2 : decide ((0 : Nat) ≤ 0) = true := by simp
            simp only [Bool.or_true, cond_true, List.getD_cons_zero, h2]
        | succ j =>
            have h2 : decide ((0 : Nat) ≤ j + 1) = true := by simp
            simp only [Bool.or_true, cond_true, List.getD_cons_succ, h2]
            have := ih true j
            rw [Bool.true_or] at this
            simpa using this

theorem processMeasures_counts (b : Bool) (ms : List Measure) :
    (processMeasures b ms).2.1 = totalQualifying ms
  ∧ (processMeasures b ms).2.2 =
      (if b then ms.length
       else ms.length - ms.findIdx (fun m => m.keySigs.any qualifies)) := by
  induction ms generalizing b with
  | nil => simp [processMeasures, totalQualifying]
  | cons m ms ih =>
      rw [processMeasures_cons, List.findIdx_cons]
      rcases hq : m.keySigs.any qualifies with _ | _
      · obtain ⟨ih1, ih2⟩ := ih b
        simp only [Bool.or_false, cond_false]
        refine ⟨by simpa [totalQualifying] using ih1, ?_⟩
        show (if b = true then 1 else 0) + (processMeasures b ms).2.2 = _
        rw [ih2]
        rcases b with _ | _
        · simp only [Bool.false_eq_true, if_false, List.length_cons, Nat.zero_add]
          omega
        · simp [List.length_cons, Nat.add_comm]
      · obtain ⟨ih1, ih2⟩ := ih true
        simp only [Bool.or_true, cond_true]
        constructor
        · simpa [totalQualifying] using ih1
        · show (if true = true then 1 else 0) + (processMeasures true ms).2.2 = _
          rw [ih2]
          rcases b with _ | _ <;> simp [List.length_cons, Nat.add_comm]

theorem qualifies_eq_false {s : Int} (h : s < thresholdSharps) : qualifies s = false := by
  simp [qualifies]
  exact h

theorem map_replaceSig_id (l : List Int) (h : ∀ s ∈ l, s < thresholdSharps) :
    l.map replaceSig = l := by
  induction l with
  | nil => rfl
  | cons a l ih =>
      have ha : replaceSig a = a := by
        unfold replaceSig
        rw [if_neg (not_le.mpr (h a (by simp)))]
      simp only [List.map_cons, ha, ih (fun s hs => h s (by simp [hs]))]

theorem any_qualifies_eq_false (l : List Int) (h : ∀ s ∈ l, s < thresholdSharps) :
    l.any qualifies = false := by
  rw [List.any_eq_false]
  intro s hs
  simp [qualifies_eq_false (h s hs)]

theorem processMeasures_id (ms : List Measure)
    (h : ∀ m ∈ ms, ∀ s ∈ m.keySigs, s < thresholdSharps) :
    processMeasures false ms = (ms, 0, 0) := by
  induction ms with
  | nil => rfl
  | cons m ms ih =>
      have hm : ∀ s ∈ m.keySigs, s < thresholdSharps := h m (by simp)
      have hrest : ∀ m2 ∈ ms, ∀ s ∈ m2.keySigs, s < thresholdSharps :=
        fun m2 hm2 => h m2 (by simp [hm2])
      have hc : m.keySigs.countP qualifies = 0 := by
        rw [List.countP_eq_zero]
        intro s hs
        simp [qualifies_eq_false (hm s hs)]
      rw [processMeasures_cons, any_qualifies_eq_false m.keySigs hm]
      simp only [Bool.or_false]
      rw [ih hrest]
      simp [map_replaceSig_id m.keySigs hm, hc]

theorem replaceSig_lt (s : Int) : replaceSig s < thresholdSharps := by
  unfold replaceSig
  split
  · norm_num [replacementKey, thresholdSharps]
  · exact not_le.mp (by assumption)

theorem processMeasures_output_sigs (b : Bool) (ms : List Measure) :
    ∀ m ∈ (processMeasures b ms).1, ∀ s ∈ m.keySigs, s < thresholdSharps := by
  induction ms generalizing b with
  | nil => simp [processMeasures]
  | cons m ms ih =>
      rw [processMeasures_cons]
      intro m2 hm2 s hs
      rcases List.mem_cons.mp hm2 with h2 | h2
      · subst h2
        simp only at hs
        obtain ⟨x, _, hx⟩ := List.mem_map.mp hs
        rw [← hx]
        exact replaceSig_lt x
      · exact ih (b || m.keySigs.any qualifies) m2 h2 s hs

theorem processMeasures_prefix_id (ms : List Measure) (j : Nat)
    (h : ∀ k, k ≤ j → ∀ s ∈ (ms.getD k emptyMeasure).keySigs, s < thresholdSharps) :
    (processMeasures false ms).1.getD j emptyMeasure = ms.getD j emptyMeasure := by
  induction ms generalizing j with
  | nil => simp [processMeasures]
  | cons m ms ih =>
      have hm : ∀ s ∈ m.keySigs, s < thresholdSharps := by
        have := h 0 (Nat.zero_le j)
        simpa using this
      rw [processMeasures_cons, any_qualifies_eq_false m.keySigs hm]
      cases j with
      | zero =>
          simp only [Bool.or_false, Bool.false_eq_true, if_false, List.getD_cons_zero]
          rw [map_replaceSig_id m.keySigs hm]
      | succ j =>
          simp only [Bool.or_false, List.getD_cons_succ]
          refine ih j (fun k hk => ?_)
          have := h (k + 1) (Nat.succ_le_succ hk)
          simpa using this

theorem remove_key_change_fst_getD (s : Score) (i : Nat) :
    (remove_key_change s).1.getD i [] = (processPart (s.getD i [])).1 := by
  induction s generalizing i with
  | nil => simp [remove_key_change, processPart, processMeasures]
  | cons p s ih =>
      cases i with
      | zero => rfl
      | succ i => simpa [remove_key_change, List.getD_cons_succ] using ih i

theorem remove_key_change_snd_getD (s : Score) (i : Nat) :
    (remove_key_change s).2.getD i (0, 0) = (processPart (s.getD i [])).2 := by
  induction s generalizing i with
  | nil => simp [remove_key_change, processPart, processMeasures]
  | cons p s ih =>
      cases i with
      | zero => rfl
      | succ i => simpa [remove_key_change, List.getD_cons_succ] using ih i

theorem getD_map_replaceSig (l : List Int) (k : Nat) :
    (l.map replaceSig).getD k 0 = replaceSig (l.getD k 0) := by
  induction l generalizing k with
  | nil =>
      have : replaceSig 0 = 0 := by unfold replaceSig; norm_num [thresholdSharps]
      simp [this]
  | cons a l ih =>
      cases k with
      | zero => rfl
      | succ k => simpa [List.getD_cons_succ] using ih k

theorem pred_false_of_lt_findIdx {α : Type} (pr : α → Bool) (l : List α) (j : Nat) (d : α)
    (h : j < l.findIdx pr) : pr (l.getD j d) = false := by
  induction l generalizing j with
  | nil => rw [List.findIdx_nil] at h; omega
  | cons a l ih =>
      rw [List.findIdx_cons] at h
      rcases ha : pr a with _ | _
      · rw [ha, cond_false] at h
        cases j with
        | zero => simpa using ha
        | succ j =>
            simp only [List.getD_cons_succ]
            exact ih j (Nat.lt_of_succ_lt_succ h)
      · rw [ha, cond_true] at h
        omega

/-! ### Claim theorems: the key-change removal transform -/

/-- Claim C1: in `remove_key_change`, for every Part, once some Measure
triggers modulation (a key signature with sharp count at least the
threshold 5), that Measure and every later Measure of the Part have every
Note pitch and every pitch inside every Chord shifted by exactly the
configured `semitoneShift` (one semitone down), while every Measure
strictly before the trigger is left with its pitches (indeed the whole
Measure) unchanged. -/
theorem remove_key_change_modulation_region (p : Part) (j : Nat) :
    (triggerIdx p ≤ j →
        ((processPart p).1.getD j emptyMeasure).events
          = ((p.getD j emptyMeasure).events).map transposeElem)
  ∧ (j < triggerIdx p →
        (processPart p).1.getD j emptyMeasure = p.getD j emptyMeasure)
  ∧ (∀ e : Elem, elemPitches (transposeElem e)
        = (elemPitches e).map (fun x => x + semitoneShift)) := by
  refine ⟨?_, ?_, ?_⟩
  · intro hj
    have h := processMeasures_getD_events false p j
    rw [Bool.false_or] at h
    rw [processPart, h, if_pos]
    simpa [triggerIdx] using hj
  · intro hj
    have hlt : j < p.length := lt_of_lt_of_le hj (by
      rw [triggerIdx]
      exact List.findIdx_le_length _)
    have hpred : (fun m : Measure => m.keySigs.any qualifies) (p.getD j emptyMeasure) = false :=
      pred_false_of_lt_findIdx _ p j emptyMeasure (by simpa [triggerIdx] using hj)
    have hsig : ∀ s ∈ (p.getD j emptyMeasure).keySigs, s < thresholdSharps := by
      intro s hs
      have := List.any_eq_false.mp hpred s hs
      simpa [qualifies, not_le] using this
    have hevents := processMeasures_getD_events false p j
    rw [Bool.false_or] at hevents
    rw [if_neg] at hevents
    · have hsigs := processMeasures_getD_keySigs false p j
      rw [map_replaceSig_id _ hsig] at hsigs
      cases hout : (processMeasures false p).1.getD j emptyMeasure with
      | mk ks es =>
          cases hin : p.getD j emptyMeasure with
          | mk ks2 es2 =>
              rw [processPart, hout]
              rw [hout, hin] at hsigs hevents
              simp only at hsigs hevents
              rw [hsigs, hevents]
    · simp only [decide_eq_true_eq, not_le]
      simpa [triggerIdx] using hj
  · intro e
    cases e <;> simp [transposeElem, elemPitches]

/-- Claim C1 witness: a part whose second measure carries a 6-sharp key
signature has its third measure's pitches shifted down a semitone. -/
theorem remove_key_change_modulation_region_witness :
    ((processPart [⟨[], [Elem.note ⟨60, none⟩]⟩,
                   ⟨[6], [Elem.note ⟨60, none⟩, Elem.chord ⟨[1, 2]⟩]⟩,
                   ⟨[], [Elem.chord ⟨[5]⟩]⟩]).1.getD 2 emptyMeasure).events
      = ((([⟨[], [Elem.note ⟨60, none⟩]⟩,
            ⟨[6], [Elem.note ⟨60, none⟩, Elem.chord ⟨[1, 2]⟩]⟩,
            ⟨[], [Elem.chord ⟨[5]⟩]⟩] : Part).getD 2 emptyMeasure).events).map transposeElem :=
  (remove_key_change_modulation_region _ 2).1 (by decide)

/-- Claim C2: every key signature with sharp count at least the threshold
is replaced by exactly `replacementKey` (so 5, 6 and 7 sharps all map to
the same 4-flat replacement) in its own Measure, and key signatures below
the threshold are left untouched. -/
theorem remove_key_change_replacement (p : Part) (j k : Nat) :
    (((processPart p).1.getD j emptyMeasure).keySigs).length
        = ((p.getD j emptyMeasure).keySigs).length
  ∧ (thresholdSharps ≤ ((p.getD j emptyMeasure).keySigs).getD k 0 →
        (((processPart p).1.getD j emptyMeasure).keySigs).getD k 0 = replacementKey)
  ∧ (((p.getD j emptyMeasure).keySigs).getD k 0 < thresholdSharps →
        (((processPart p).1.getD j emptyMeasure).keySigs).getD k 0
          = ((p.getD j emptyMeasure).keySigs).getD k 0) := by
  have hsigs := processMeasures_getD_keySigs false p j
  rw [processPart, hsigs]
  refine ⟨by simp, ?_, ?_⟩
  · intro h
    rw [getD_map_replaceSig, replaceSig, if_pos h]
  · intro h
    rw [getD_map_replaceSig, replaceSig, if_neg (not_le.mpr h)]

/-- Claim C2 witness: a 6-sharp signature becomes the 4-flat replacement;
a 2-sharp signature in the same measure is untouched. -/
theorem remove_key_change_replacement_witness :
    ((((processPart [⟨[6, 2], []⟩]).1.getD 0 emptyMeasure).keySigs).getD 0 0 = replacementKey)
  ∧ ((((processPart [⟨[6, 2], []⟩]).1.getD 0 emptyMeasure).keySigs).getD 1 0
      = ((([⟨[6, 2], []⟩] : Part).getD 0 emptyMeasure).keySigs).getD 1 0) :=
  ⟨(remove_key_change_replacement [⟨[6, 2], []⟩] 0 0).2.1 (by decide),
   (remove_key_change_replacement [⟨[6, 2], []⟩] 0 1).2.2 (by decide)⟩

/-- Claim C3: the "in modulation" state is per-Part and initially false:
a Measure preceded by no qualifying key signature (itself included) is
unchanged, and a Part containing no qualifying key signature at all is
left entirely untransposed with zero counts, even when other Parts of the
same score do trigger modulation. -/
theorem remove_key_change_part_isolation (s : Score) (i j : Nat)
    (h : ∀ k, k ≤ j →
        ∀ ks ∈ ((s.getD i []).getD k emptyMeasure).keySigs, ks < thresholdSharps) :
    ((remove_key_change s).1.getD i []).getD j emptyMeasure
        = (s.getD i []).getD j emptyMeasure
  ∧ ((∀ m ∈ s.getD i [], ∀ ks ∈ m.keySigs, ks < thresholdSharps) →
        (remove_key_change s).1.getD i [] = s.getD i []
      ∧ (remove_key_change s).2.getD i (0, 0) = (0, 0)) := by
  constructor
  · rw [remove_key_change_fst_getD]
    exact processMeasures_prefix_id _ j h
  · intro hall
    have hid := processMeasures_id _ hall
    constructor
    · rw [remove_key_change_fst_getD, processPart, hid]
    · rw [remove_key_change_snd_getD, processPart, hid]

/-- Claim C3 witness: in a two-part score whose first part modulates, the
second part (2 sharps only) is untouched and reports zero counts. -/
theorem remove_key_change_part_isolation_witness :
    (remove_key_change [[⟨[6], [Elem.note ⟨60, none⟩]⟩],
                        [⟨[2], [Elem.note ⟨10, none⟩]⟩]]).1.getD 1 []
        = ([[⟨[6], [Elem.note ⟨60, none⟩]⟩],
            [⟨[2], [Elem.note ⟨10, none⟩]⟩]] : Score).getD 1 []
  ∧ (remove_key_change [[⟨[6], [Elem.note ⟨60, none⟩]⟩],
                        [⟨[2], [Elem.note ⟨10, none⟩]⟩]]).2.getD 1 (0, 0) = (0, 0) :=
  ⟨((remove_key_change_part_isolation _ 1 0 (by decide)).2 (by decide)).1,
   ((remove_key_change_part_isolation _ 1 0 (by decide)).2 (by decide)).2⟩

/-- Claim C4: re-running `remove_key_change` on an already-transformed
score is a no-op: all qualifying signatures were replaced by the 4-flat
`replacementKey`, which is below the threshold, so the second application
performs zero replacements and zero transpositions and returns the
once-transformed score unchanged. -/
theorem remove_key_change_rerun_noop (s : Score) :
    remove_key_change ((remove_key_change s).1)
      = ((remove_key_change s).1, s.map (fun _ => (0, 0))) := by
  have hpart : ∀ p : Part, processPart ((processPart p).1) = ((processPart p).1, 0, 0) :=
    fun p => processMeasures_id _ (processMeasures_output_sigs false p)
  unfold remove_key_change
  refine Prod.ext ?_ ?_
  · show List.map (fun p => (processPart p).1) (List.map (fun p => (processPart p).1) s)
        = List.map (fun p => (processPart p).1) s
    rw [List.map_map]
    refine List.map_congr_left (fun p _ => ?_)
    show (processPart ((processPart p).1)).1 = (processPart p).1
    rw [hpart p]
  · show List.map (fun p => (processPart p).2) (List.map (fun p => (processPart p).1) s)
        = List.map (fun _ => (0, 0)) s
    rw [List.map_map]
    refine List.map_congr_left (fun p _ => ?_)
    show (processPart ((processPart p).1)).2 = (0, 0)
    rw [hpart p]

/-- Claim C6: the per-part report of `remove_key_change` is correct: the
key-signatures-replaced count equals the number of qualifying signatures
in the part, and the measures-transposed count equals the number of
measures from the first trigger measure to the end of the part. -/
theorem remove_key_change_reported_counts (s : Score) (i : Nat) :
    (remove_key_change s).2.getD i (0, 0)
      = (totalQualifying (s.getD i []),
         (s.getD i []).length - triggerIdx (s.getD i [])) := by
  rw [remove_key_change_snd_getD, processPart]
  obtain ⟨h1, h2⟩ := processMeasures_counts false (s.getD i [])
  rw [Prod.ext_iff]
  refine ⟨h1, ?_⟩
  rw [h2, if_neg (by simp), triggerIdx]

/-- Claim C7: `remove_key_change` never fails on empty scopes: a score
with zero parts maps to a score with zero parts and an empty report list,
an empty part yields zero replacements and zero transpositions, and a
zero-measure part inside a larger score is returned empty with a zero
report. -/
theorem remove_key_change_empty_scopes :
    remove_key_change [] = ([], [])
  ∧ processPart [] = ([], 0, 0)
  ∧ ∀ (s : Score) (i : Nat), s.getD i [] = [] →
      (remove_key_change s).1.getD i [] = []
      ∧ (remove_key_change s).2.getD i (0, 0) = (0, 0) := by
  refine ⟨rfl, rfl, fun s i hi => ?_⟩
  rw [remove_key_change_fst_getD, remove_key_change_snd_getD, hi]
  exact ⟨rfl, rfl⟩

/-- Claim C7 witness: the empty first part of a two-part score produces
an empty transformed part and a zero report. -/
theorem remove_key_change_empty_scopes_witness :
    (remove_key_change [[], [⟨[6], []⟩]]).1.getD 0 [] = []
  ∧ (remove_key_change [[], [⟨[6], []⟩]]).2.getD 0 (0, 0) = (0, 0) :=
  remove_key_change_empty_scopes.2.2 [[], [⟨[6], []⟩]] 0 (by decide)

/-! ### Helper lemmas about the lyric overlay -/

theorem mapWithIndex_append {α β : Type} (f : Nat → α → β) (i : Nat) (as bs : List α) :
    mapWithIndex f i (as ++ bs)
      = mapWithIndex f i as ++ mapWithIndex f (i + as.length) bs := by
  induction as generalizing i with
  | nil => simp [mapWithIndex]
  | cons a as ih =>
      have hidx : i + 1 + as.length = i + (a :: as).length := by
        simp only [List.length_cons]
        omega
      calc mapWithIndex f i ((a :: as) ++ bs)
          = f i a :: mapWithIndex f (i + 1) (as ++ bs) := rfl
        _ = f i a :: (mapWithIndex f (i + 1) as
              ++ mapWithIndex f (i + 1 + as.length) bs) := by rw [ih (i + 1)]
        _ = (f i a :: mapWithIndex f (i + 1) as)
              ++ mapWithIndex f (i + (a :: as).length) bs := by rw [hidx]; rfl
        _ = mapWithIndex f i (a :: as)
              ++ mapWithIndex f (i + (a :: as).length) bs := rfl

theorem setLyricsEvents_spec (syls : List String) (es : List Elem) (i : Nat) :
    (setLyricsEvents syls i es).2 = i + (notesOfEvents es).length
  ∧ notesOfEvents (setLyricsEvents syls i es).1
      = mapWithIndex (assignLyric syls) i (notesOfEvents es)
  ∧ chordsOfEvents (setLyricsEvents syls i es).1 = chordsOfEvents es := by
  induction es generalizing i with
  | nil => simp [setLyricsEvents, notesOfEvents, chordsOfEvents, mapWithIndex]
  | cons e es ih =>
      cases e with
      | note n =>
          obtain ⟨ih1, ih2, ih3⟩ := ih (i + 1)
          refine ⟨?_, ?_, ?_⟩
          · simp only [setLyricsEvents, notesOfEvents, ih1, List.length_cons]
            omega
          · simp only [setLyricsEvents, notesOfEvents, mapWithIndex, ih2]
          · simp only [setLyricsEvents, notesOfEvents, chordsOfEvents, ih3]
      | chord c =>
          obtain ⟨ih1, ih2, ih3⟩ := ih i
          refine ⟨?_, ?_, ?_⟩
          · simp only [setLyricsEvents, notesOfEvents, ih1]
          · simp only [setLyricsEvents, notesOfEvents, ih2]
          · simp only [setLyricsEvents, notesOfEvents, chordsOfEvents, ih3]

theorem setLyricsMeasures_spec (syls : List String) (ms : List Measure) (i : Nat) :
    (setLyricsMeasures syls i ms).2 = i + (partNotes ms).length
  ∧ partNotes (setLyricsMeasures syls i ms).1
      = mapWithIndex (assignLyric syls) i (partNotes ms)
  ∧ partChords (setLyricsMeasures syls i ms).1 = partChords ms
  ∧ ((setLyricsMeasures syls i ms).1).map Measure.keySigs = ms.map Measure.keySigs := by
  induction ms generalizing i with
  | nil => simp [setLyricsMeasures, partNotes, partChords, mapWithIndex]
  | cons m ms ih =>
      obtain ⟨he1, he2, he3⟩ := setLyricsEvents_spec syls m.events i
      obtain ⟨ih1, ih2, ih3, ih4⟩ := ih ((setLyricsEvents syls i m.events).2)
      rw [he1] at ih1 ih2 ih3 ih4
      refine ⟨?_, ?_, ?_, ?_⟩
      · simp only [setLyricsMeasures, he1, ih1, partNotes, List.length_append]
        omega
      · simp only [setLyricsMeasures, partNotes, he2, he1, ih2,
          mapWithIndex_append]
      · simp only [setLyricsMeasures, partChords, he3, he1, ih3]
      · simp only [setLyricsMeasures, List.map_cons, he1, ih4]

/-! ### Claim theorem: the lyric overlay -/

/-- Claim C5: `add_lyrics` modifies only the first Part: the i-th single
Note of that Part (in traversal order, Chords skipped) receives
`syllables[i]` for `i` below both list lengths, Notes beyond the syllable
list are left as they were, extra syllables are dropped without error,
Chords never receive a lyric, and all other Parts are returned
untouched. -/
theorem add_lyrics_first_part_only (syls : List String) (p : Part) (rest : List Part) :
    add_lyrics syls ([] : Score) = []
  ∧ ∃ p2 : Part,
      add_lyrics syls (p :: rest) = p2 :: rest
    ∧ partNotes p2 = mapWithIndex (assignLyric syls) 0 (partNotes p)
    ∧ partChords p2 = partChords p
    ∧ p2.map Measure.keySigs = p.map Measure.keySigs
    ∧ (∀ (i : Nat) (n : Note), ¬ i < syls.length → assignLyric syls i n = n)
    ∧ (∀ (i : Nat) (n : Note), i < syls.length →
          assignLyric syls i n = { n with lyric := some (syls.getD i "") }) := by
  obtain ⟨h1, h2, h3, h4⟩ := setLyricsMeasures_spec syls p 0
  refine ⟨rfl, (setLyricsMeasures syls 0 p).1, rfl, h2, h3, h4, ?_, ?_⟩
  · intro i n hi
    rw [assignLyric, if_neg hi]
  · intro i n hi
    rw [assignLyric, if_pos hi]

/-- Claim C5 witness: with syllables ["a", "b"] and a first part holding
Note, Chord, Note, Note, the first two Notes receive the two syllables,
the chord and the third Note are unchanged, and the second part is
untouched. -/
theorem add_lyrics_first_part_only_witness :
    add_lyrics ["a", "b"] ([] : Score) = []
  ∧ ∃ p2 : Part,
      add_lyrics ["a", "b"]
          ([⟨[], [Elem.note ⟨60, none⟩, Elem.chord ⟨[1]⟩, Elem.note ⟨61, none⟩,
                  Elem.note ⟨62, none⟩]⟩] :: [[⟨[2], []⟩]])
        = p2 :: [[⟨[2], []⟩]]
    ∧ partNotes p2 = mapWithIndex (assignLyric ["a", "b"]) 0
        (partNotes [⟨[], [Elem.note ⟨60, none⟩, Elem.chord ⟨[1]⟩, Elem.note ⟨61, none⟩,
                          Elem.note ⟨62, none⟩]⟩])
    ∧ partChords p2 = partChords [⟨[], [Elem.note ⟨60, none⟩, Elem.chord ⟨[1]⟩,
                                        Elem.note ⟨61, none⟩, Elem.note ⟨62, none⟩]⟩]
    ∧ p2.map Measure.keySigs
        = ([⟨[], [Elem.note ⟨60, none⟩, Elem.chord ⟨[1]⟩, Elem.note ⟨61, none⟩,
                  Elem.note ⟨62, none⟩]⟩] : Part).map Measure.keySigs
    ∧ (∀ (i : Nat) (n : Note), ¬ i < (["a", "b"] : List String).length →
          assignLyric ["a", "b"] i n = n)
    ∧ (∀ (i : Nat) (n : Note), i < (["a", "b"] : List String).length →
          assignLyric ["a", "b"] i n
            = { n with lyric := some ((["a", "b"] : List String).getD i "") }) :=
  add_lyrics_first_part_only ["a", "b"] _ _

/-! ### Helper lemmas for the glue stages -/

theorem mem_insertSorted (x y : String) (l : List String) :
    y ∈ insertSorted x l ↔ y = x ∨ y ∈ l := by
  induction l with
  | nil => simp [insertSorted]
  | cons a l ih =>
      unfold insertSorted
      split
      · simp
      · simp only [List.mem_cons, ih]
        tauto

theorem mem_sortStrings (x : String) (l : List String) :
    x ∈ sortStrings l ↔ x ∈ l := by
  induction l with
  | nil => simp [sortStrings]
  | cons a l ih =>
      unfold sortStrings
      rw [mem_insertSorted, ih]
      simp

theorem mem_ocrLoop (rec : String → Option String) (f : String) (l : List String)
    (h : f ∈ ocrLoop rec l) : ∃ img ∈ l, rec img = some f := by
  induction l with
  | nil => simp [ocrLoop] at h
  | cons img l ih =>
      unfold ocrLoop at h
      rcases hr : rec img with _ | v
      · rw [hr] at h
        obtain ⟨w, hw, hwf⟩ := ih h
        exact ⟨w, by simp [hw], hwf⟩
      · rw [hr] at h
        rcases List.mem_cons.mp h with h2 | h2
        · exact ⟨img, by simp, by rw [hr, h2]⟩
        · obtain ⟨w, hw, hwf⟩ := ih h2
          exact ⟨w, by simp [hw], hwf⟩

theorem appendPageParts_length (c p : Score) :
    (appendPageParts c p).length = c.length := by
  induction c generalizing p with
  | nil => cases p <;> rfl
  | cons c0 cs ih =>
      cases p with
      | nil => rfl
      | cons p0 ps => simp [appendPageParts, ih]

theorem appendPageParts_getD (c p : Score) (i : Nat) :
    (appendPageParts c p).getD i []
      = if i < c.length then c.getD i [] ++ p.getD i [] else [] := by
  induction c generalizing p i with
  | nil => simp [appendPageParts]
  | cons c0 cs ih =>
      cases p with
      | nil =>
          show (c0 :: cs).getD i [] = _
          by_cases hi : i < (c0 :: cs).length
          · rw [if_pos hi, List.getD_nil, List.append_nil]
          · rw [if_neg hi, List.getD_eq_default]
            omega
      | cons p0 ps =>
          cases i with
          | zero => simp [appendPageParts]
          | succ i =>
              show (appendPageParts cs ps).getD i [] = _
              rw [ih ps i]
              simp only [List.length_cons, List.getD_cons_succ,
                Nat.succ_lt_succ_iff]

theorem foldl_appendPageParts_length (first : Score) (rest : List Score) :
    (rest.foldl appendPageParts first).length = first.length := by
  induction rest generalizing first with
  | nil => rfl
  | cons pg pgs ih =>
      show (pgs.foldl appendPageParts (appendPageParts first pg)).length = _
      rw [ih, appendPageParts_length]

theorem foldl_appendPageParts_getD (first : Score) (rest : List Score) (i : Nat) :
    (rest.foldl appendPageParts first).getD i []
      = if i < first.length then first.getD i [] ++ pagesPartAt i rest else [] := by
  induction rest generalizing first with
  | nil =>
      show first.getD i [] = _
      by_cases hi : i < first.length
      · rw [if_pos hi]
        simp [pagesPartAt]
      · rw [if_neg hi, List.getD_eq_default]
        omega
  | cons pg pgs ih =>
      show (pgs.foldl appendPageParts (appendPageParts first pg)).getD i [] = _
      rw [ih, appendPageParts_length, appendPageParts_getD]
      by_cases hi : i < first.length
      · rw [if_pos hi, if_pos hi, if_pos hi]
        simp [pagesPartAt, List.append_assoc]
      · simp [hi]

/-! ### Claim theorems: the glue stages -/

/-- Claim C8: `export_to_pdf` raises exactly when the renderer exits
non-zero, the raised message embeds the renderer's stderr verbatim, and a
zero exit returns the output PDF path. -/
theorem export_to_pdf_error_propagation (run : String → String → ProcResult)
    (mx pdf : String) :
    ((run mx pdf).returncode = 0 → export_to_pdf run mx pdf = Except.ok pdf)
  ∧ ((run mx pdf).returncode ≠ 0 →
        export_to_pdf run mx pdf
          = Except.error ("MuseScore export failed: " ++ (run mx pdf).stderr))
  ∧ (∀ e : String, export_to_pdf run mx pdf = Except.error e →
        ∃ pre : String, e = pre ++ (run mx pdf).stderr) := by
  refine ⟨?_, ?_, ?_⟩
  · intro h
    rw [export_to_pdf]
    simp only [h, if_pos]
  · intro h
    rw [export_to_pdf]
    simp only [if_neg h]
  · intro e he
    rw [export_to_pdf] at he
    by_cases h : (run mx pdf).returncode = 0
    · rw [if_pos h] at he
      exact absurd he (by simp)
    · rw [if_neg h] at he
      refine ⟨"MuseScore export failed: ", ?_⟩
      exact (Except.error.injEq _ _ ▸ congrArg id he).symm ▸ rfl

/-- Claim C8 witness: a renderer exiting with status 1 and stderr "diag"
makes the export raise with that diagnostic embedded verbatim. -/
theorem export_to_pdf_error_propagation_witness :
    export_to_pdf (fun _ _ => ⟨1, "", "diag"⟩) "in.musicxml" "out.pdf"
      = Except.error ("MuseScore export failed: " ++ "diag") :=
  (export_to_pdf_error_propagation (fun _ _ => ⟨1, "", "diag"⟩)
    "in.musicxml" "out.pdf").2.1 (by decide)

/-- Claim C9: the OCR stage always skips the first page image: on any
non-empty image list, recognition runs only on the tail, the result does
not depend on the first image at all, and every file in the combined
output comes from recognizing some tail image. -/
theorem ocr_skips_cover_page (rec : String → Option String)
    (img0 : String) (rest : List String) :
    ocr_images_to_musicxml rec (img0 :: rest) = sortStrings (ocrLoop rec rest)
  ∧ (∀ img1 : String, ocr_images_to_musicxml rec (img0 :: rest)
        = ocr_images_to_musicxml rec (img1 :: rest))
  ∧ (∀ f : String, f ∈ ocr_images_to_musicxml rec (img0 :: rest) →
        ∃ img ∈ rest, rec img = some f) := by
  refine ⟨rfl, fun img1 => rfl, fun f hf => ?_⟩
  rw [ocr_images_to_musicxml] at hf
  exact mem_ocrLoop rec f rest ((mem_sortStrings f _).mp hf)

/-- Claim C9 witness: with a recognizer that outputs a file only for the
second page image, the output of that page is present and traces back to
a tail image, the cover never contributing. -/
theorem ocr_skips_cover_page_witness :
    ∃ img ∈ ["p2.png"],
      (fun s => if s = "p2.png" then some "x2.musicxml" else none) img
        = some "x2.musicxml" :=
  (ocr_skips_cover_page (fun s => if s = "p2.png" then some "x2.musicxml" else none)
      "cover.png" ["p2.png"]).2.2 "x2.musicxml" (by decide)

/-- Claim C10: `combine_musicxml_pages` keeps the first page's part
structure fixed: the combined score has exactly the first page's part
count, part `i` of the combined score is the first page's part `i`
followed by every later page's part `i` measures in page order, and later
pages' parts beyond the first page's part count are dropped. -/
theorem combine_pages_part_structure (first : Score) (rest : List Score) :
    ∃ c : Score, combine_musicxml_pages (first :: rest) = Except.ok c
      ∧ c.length = first.length
      ∧ ∀ i : Nat, c.getD i []
          = if i < first.length
            then first.getD i [] ++ pagesPartAt i rest
            else [] := by
  refine ⟨rest.foldl appendPageParts first, rfl,
    foldl_appendPageParts_length first rest,
    fun i => foldl_appendPageParts_getD first rest i⟩

end SheetMusic
